import Mathlib

set_option maxRecDepth 8000

/-!
Shallow embedding of `src/actions_advisor/file_parser.py` (the file-reference
extraction and path-resolution engine of the actions-ai-advisor repository).

Strings are modelled as `List Char` (the logs under scrutiny are ASCII, so the
ASCII fragments of Python's `\d`, `\w`, `\s` classes are used).  The regular
expressions of the source are transcribed literally into a small syntax
(`Re`) and executed by a backtracking matcher (`mrun`) that mirrors Python's
`re` semantics for the constructs these patterns use: leftmost match, greedy
and lazy repetition over single character classes, left-first alternation,
optional groups, capturing groups, and multiline anchors.
-/

abbrev Str := List Char

/-! ### Character classes (ASCII fragments of Python `re` classes) -/

/-- The characters of Python's `\s` class (ASCII): space, tab, LF, CR, VT, FF. -/
def wsChars : Str := [' ', '\t', '\n', '\r', Char.ofNat 11, Char.ofNat 12]

def isWS (c : Char) : Bool := decide (c ∈ wsChars)

/-- `\d` (ASCII). -/
def isDigitC (c : Char) : Bool := 48 ≤ c.toNat && c.toNat ≤ 57

/-- `[A-Za-z]`. -/
def isAlphaC (c : Char) : Bool :=
  (65 ≤ c.toNat && c.toNat ≤ 90) || (97 ≤ c.toNat && c.toNat ≤ 122)

/-- `[a-z]`. -/
def isLowerC (c : Char) : Bool := 97 ≤ c.toNat && c.toNat ≤ 122

/-- `\w` (ASCII). -/
def isWordC (c : Char) : Bool := isAlphaC c || isDigitC c || c = '_'

/-- The path character class `[\w.\/\\\-]` of `PATH_PATTERN`. -/
def isPathC (c : Char) : Bool := isWordC c || c = '.' || c = '/' || c = '\\' || c = '-'

/-- `\S`. -/
def isNonSpaceC (c : Char) : Bool := !(isWS c)

/-- `[\d.]`. -/
def isDigitDotC (c : Char) : Bool := isDigitC c || c = '.'

/-- `[a-zA-Z0-9.]`. -/
def isAlnumDotC (c : Char) : Bool := isAlphaC c || isDigitC c || c = '.'

/-- `[0-9;]`. -/
def isDigitSemiC (c : Char) : Bool := isDigitC c || c = ';'

/-- `[^"]`. -/
def notQuoteC (c : Char) : Bool := !(c = '"')

/-- `.` (any character but a newline; no DOTALL flag is used in the source). -/
def notNLC (c : Char) : Bool := !(c = '\n')

/-- `[^/]`. -/
def notSlashC (c : Char) : Bool := !(c = '/')

/-- `[^/\)]`. -/
def notSlashParenC (c : Char) : Bool := !(c = '/') && !(c = ')')

/-- `['\"]` (a single quote or a double quote). -/
def quoteLikeC (c : Char) : Bool := c = Char.ofNat 39 || c = '"'

/-- `[\\/]` (the separator alternatives in `PATH_PATTERN`). -/
def slashOrBackC (c : Char) : Bool := c = '\\' || c = '/'

/-! ### Regex syntax

Repetition operators appear in the source only with single-character-class
bodies, which is what the syntax below offers.  `{n}` counted repetitions are
expanded with `List.replicate`.  -/

inductive Re where
  | lit (cs : Str)
  | one (p : Char → Bool)
  | many (p : Char → Bool)
  | many1 (p : Char → Bool)
  | manyL (p : Char → Bool)
  | many1L (p : Char → Bool)
  | opt (body : List Re)
  | alts (choices : List (List Re))
  | grp (i : Nat) (body : List Re)
  | grpEnd (i : Nat)
  | bol
  | eol

/-- Matcher state: the last consumed character (for `^` in MULTILINE mode),
the remaining input suffix, the suffixes at which groups were opened, and the
completed group captures. -/
structure MState where
  prev : Option Char
  rest : Str
  pend : List (Nat × Str)
  caps : List (Nat × Str)

/-- Number of leading characters of `s` satisfying `p` (the maximal extent of
a greedy repetition of the class `p`). -/
def countWhile (p : Char → Bool) : Str → Nat
  | [] => 0
  | c :: t => if p c then countWhile p t + 1 else 0

/-- Advance the state by `k` characters. -/
def advance (st : MState) (k : Nat) : MState :=
  if k = 0 then st
  else { st with prev := (st.rest.drop (k - 1)).head?, rest := st.rest.drop k }

/-- Consume a literal string (over the raw prev/rest components). -/
def eatChars : Str → Option Char → Str → Option (Option Char × Str)
  | [], pv, rest => some (pv, rest)
  | _ :: _, _, [] => none
  | c :: cs, _, d :: t => if c = d then eatChars cs (some d) t else none

/-- Consume a literal string. -/
def eatLit (cs : Str) (st : MState) : Option MState :=
  (eatChars cs st.prev st.rest).map (fun pr => { st with prev := pr.1, rest := pr.2 })

/-- Try `f k`, `f (k-1)`, …, `f 0` (greedy `*` backtracking order). -/
def tryDown (f : Nat → Option MState) : Nat → Option MState
  | 0 => f 0
  | k + 1 => (f (k + 1)).orElse (fun _ => tryDown f k)

/-- Try `f k`, `f (k-1)`, …, `f 1` (greedy `+` backtracking order). -/
def tryDown1 (f : Nat → Option MState) : Nat → Option MState
  | 0 => none
  | k + 1 => (f (k + 1)).orElse (fun _ => tryDown1 f k)

/-- Try `f lo`, `f (lo+1)`, …, `f (lo+n)` (lazy repetition order). -/
def tryUp (f : Nat → Option MState) (lo : Nat) : Nat → Option MState
  | 0 => f lo
  | n + 1 => (f lo).orElse (fun _ => tryUp f (lo + 1) n)

/-- First alternative that matches (left-first alternation). -/
def firstAlt (f : List Re → Option MState) : List (List Re) → Option MState
  | [] => none
  | c :: cs => (f c).orElse (fun _ => firstAlt f cs)

/-- Close capturing group `i`: the captured text is the part of the suffix
recorded at the group opening that has been consumed since. -/
def closeGrp (i : Nat) (st : MState) : MState :=
  match st.pend.find? (fun e => e.1 == i) with
  | some e => { st with caps := (i, e.2.take (e.2.length - st.rest.length)) :: st.caps }
  | none => st

/-- Fuel bound for the matcher.  Each recursive call strictly decreases the
combined size of the pending regex list (sequencing constructs only unfold
their bodies), which for every pattern in this file is far below this bound,
so the fuel never runs out on them. -/
def reFuel : Nat := 1000

/-- Backtracking matcher, anchored at the current state.  Mirrors Python `re`
semantics for this syntax: greedy repetitions try longest first, lazy ones
shortest first, alternation is left-first, and failure of the continuation
backtracks into earlier choices. -/
def mrun : Nat → List Re → MState → Option MState
  | _, [], st => some st
  | 0, _ :: _, _ => none
  | Nat.succ fuel, Re.lit cs :: rs, st =>
    match eatLit cs st with
    | some st2 => mrun fuel rs st2
    | none => none
  | Nat.succ fuel, Re.one p :: rs, st =>
    match st.rest with
    | c :: t => if p c then mrun fuel rs { st with prev := some c, rest := t } else none
    | [] => none
  | Nat.succ fuel, Re.many p :: rs, st =>
    tryDown (fun k => mrun fuel rs (advance st k)) (countWhile p st.rest)
  | Nat.succ fuel, Re.many1 p :: rs, st =>
    tryDown1 (fun k => mrun fuel rs (advance st k)) (countWhile p st.rest)
  | Nat.succ fuel, Re.manyL p :: rs, st =>
    tryUp (fun k => mrun fuel rs (advance st k)) 0 (countWhile p st.rest)
  | Nat.succ fuel, Re.many1L p :: rs, st =>
    match countWhile p st.rest with
    | 0 => none
    | Nat.succ m => tryUp (fun k => mrun fuel rs (advance st k)) 1 m
  | Nat.succ fuel, Re.opt body :: rs, st =>
    (mrun fuel (body ++ rs) st).orElse (fun _ => mrun fuel rs st)
  | Nat.succ fuel, Re.alts cs :: rs, st =>
    firstAlt (fun c => mrun fuel (c ++ rs) st) cs
  | Nat.succ fuel, Re.grp i body :: rs, st =>
    mrun fuel (body ++ Re.grpEnd i :: rs) { st with pend := (i, st.rest) :: st.pend }
  | Nat.succ fuel, Re.grpEnd i :: rs, st => mrun fuel rs (closeGrp i st)
  | Nat.succ fuel, Re.bol :: rs, st =>
    if st.prev = none || st.prev = some '\n' then mrun fuel rs st else none
  | Nat.succ fuel, Re.eol :: rs, st =>
    if decide (st.rest = []) || st.rest.head? = some '\n' then mrun fuel rs st else none

/-- Captured text of group `i` (the most recent capture, as in Python). -/
def getCap (st : MState) (i : Nat) : Option Str :=
  (st.caps.find? (fun e => e.1 == i)).map (fun e => e.2)

/-- `re.search`: try the pattern at every position, earliest first. -/
def scanRe (re : List Re) (prev : Option Char) (s : Str) : Option MState :=
  match mrun reFuel re ⟨prev, s, [], []⟩ with
  | some st => some st
  | none =>
    match s with
    | [] => none
    | c :: t => scanRe re (some c) t

def searchRe (re : List Re) (s : Str) : Option MState := scanRe re none s

/-- One `finditer` step: on a match, yield it and resume after it (advancing
one character when the match was empty); on a failure, advance one
character. -/
def finditStep (s : Str) (next : Option Char → Str → List MState) :
    Option MState → List MState
  | some st =>
    if st.rest.length < s.length then st :: next st.prev st.rest
    else
      match s with
      | [] => [st]
      | c :: t => st :: next (some c) t
  | none =>
    match s with
    | [] => []
    | c :: t => next (some c) t

/-- `re.finditer`: repeated non-overlapping search. -/
def finditAux (re : List Re) : Nat → Option Char → Str → List MState
  | 0, _, _ => []
  | Nat.succ fuel, prev, s =>
    finditStep s (finditAux re fuel) (mrun reFuel re ⟨prev, s, [], []⟩)

def finditRe (re : List Re) (s : Str) : List MState := finditAux re (s.length + 1) none s

/-! ### ANSI escape stripping (step 1 of `_extract_working_directory`) -/

/-- `\x1b\[[0-9;]*[a-zA-Z]` -/
def ansiRe : List Re := [.lit [Char.ofNat 27, '['], .many isDigitSemiC, .one isAlphaC]

/-- `re.sub(ansi_escape, "", ...)`: drop every match, keep everything else. -/
def ansiStripAux : Nat → Option Char → Str → Str
  | 0, _, _ => []
  | Nat.succ fuel, prev, s =>
    match mrun reFuel ansiRe ⟨prev, s, [], []⟩ with
    | some st =>
      if st.rest.length < s.length then ansiStripAux fuel st.prev st.rest
      else
        match s with
        | [] => []
        | c :: t => c :: ansiStripAux fuel (some c) t
    | none =>
      match s with
      | [] => []
      | c :: t => c :: ansiStripAux fuel (some c) t

def ansiStrip (s : Str) : Str := ansiStripAux (s.length + 1) none s

/-! ### The pattern battery (`FILE_PATTERNS`)

Each list below is the literal transcription of one compiled pattern of the
source, in source order.  Group 1 is the `file` group; group 2 is the `line`
group (absent from patterns that define no line group). -/

/-- `PATH_PATTERN = (?:[A-Za-z]:[\\/])?[\w.\/\\\-]+` -/
def pathPat : List Re :=
  [.opt [.one isAlphaC, .lit [':'], .one slashOrBackC], .many1 isPathC]

/-- `\d+` -/
def digits1 : Re := .many1 isDigitC

def extAlts (xs : List String) : Re := Re.alts (xs.map (fun x => [Re.lit x.toList]))

/-- `File "(?P<file>[^"]+\.(?:py|pyx))", line (?P<line>\d+)` -/
def patPyTrace : List Re :=
  [.lit "File \"".toList,
   .grp 1 [.many1 notQuoteC, .lit ['.'], extAlts ["py", "pyx"]],
   .lit "\", line ".toList, .grp 2 [digits1]]

/-- ` in (?P<file>{PATH_PATTERN}\.php) on line (?P<line>\d+)` -/
def patPhp : List Re :=
  [.lit " in ".toList,
   .grp 1 (pathPat ++ [.lit ['.'], .lit "php".toList]),
   .lit " on line ".toList, .grp 2 [digits1]]

/-- `(?P<file>{PATH_PATTERN}\.cs)\((?P<line>\d+),\d+\):` -/
def patCs : List Re :=
  [.grp 1 (pathPat ++ [.lit ['.'], .lit "cs".toList]),
   .lit ['('], .grp 2 [digits1], .lit [','], digits1, .lit "):".toList]

/-- `(?:mypy|ruff|pylint|flake8|pyright|black):\s+"(?P<file>[^"]+)"` -/
def patLinters : List Re :=
  [extAlts ["mypy", "ruff", "pylint", "flake8", "pyright", "black"],
   .lit [':'], .many1 isWS, .lit ['"'], .grp 1 [.many1 notQuoteC], .lit ['"']]

/-- `(?P<file>Dockerfile(?:\.[a-z]+)?):(?P<line>\d+)` -/
def patDocker : List Re :=
  [.grp 1 [.lit "Dockerfile".toList, .opt [.lit ['.'], .many1 isLowerC]],
   .lit [':'], .grp 2 [digits1]]

/-- `(?P<file>{PATH_PATTERN}\.(?:py|js|ts|tsx|jsx|go|rs|rb|java|cpp|c|h|cs|php|swift|kt|scala)):(?P<line>\d+)(?::\d+)?` -/
def patGeneric : List Re :=
  [.grp 1 (pathPat ++ [.lit ['.'],
     extAlts ["py", "js", "ts", "tsx", "jsx", "go", "rs", "rb", "java",
              "cpp", "c", "h", "cs", "php", "swift", "kt", "scala"]]),
   .lit [':'], .grp 2 [digits1], .opt [.lit [':'], digits1]]

/-- `at (?P<file>{PATH_PATTERN}\.(?:js|ts|tsx|jsx)):(?P<line>\d+):\d+` -/
def patNode : List Re :=
  [.lit "at ".toList,
   .grp 1 (pathPat ++ [.lit ['.'], extAlts ["js", "ts", "tsx", "jsx"]]),
   .lit [':'], .grp 2 [digits1], .lit [':'], digits1]

/-- `(?P<file>(?:Makefile|CMakeLists\.txt|Gemfile|Rakefile)):(?P<line>\d+)` -/
def patBuildFiles : List Re :=
  [.grp 1 [extAlts ["Makefile", "CMakeLists.txt", "Gemfile", "Rakefile"]],
   .lit [':'], .grp 2 [digits1]]

/-- `Can't resolve ['\"](?P<file>{PATH_PATTERN})['\"]` -/
def patWebpack : List Re :=
  [.lit ("Can".toList ++ [Char.ofNat 39] ++ "t resolve ".toList),
   .one quoteLikeC, .grp 1 pathPat, .one quoteLikeC]

/-- `(?:checking|in|file|from|import)\s+(?P<file>{PATH_PATTERN}\.(?:py|js|ts|go|rs|rb|java))` -/
def patProse : List Re :=
  [extAlts ["checking", "in", "file", "from", "import"], .many1 isWS,
   .grp 1 (pathPat ++ [.lit ['.'], extAlts ["py", "js", "ts", "go", "rs", "rb", "java"]])]

def FILE_PATTERNS : List (List Re) :=
  [patPyTrace, patPhp, patCs, patLinters, patDocker, patGeneric, patNode,
   patBuildFiles, patWebpack, patProse]

/-! ### Working-directory inference (`_extract_working_directory`) -/

/-- The Rust/Cargo pattern (re.MULTILINE | re.VERBOSE, whitespace stripped):
`(?:^\d{4}-\d{2}-\d{2}T\d{2}:\d{2}:\d{2}\.\d+Z\s+)?Compiling\s+\S+\s+v[\d.]+(?:-[a-zA-Z0-9.]+)?\s+\((?P<full_path>.*?/(?P<parent>[^/]+)/(?P<last>[^/\)]+))\)`
with `full_path` as group 1, `parent` as group 2, `last` as group 3. -/
def rustRe : List Re :=
  [.opt ([Re.bol] ++ List.replicate 4 (Re.one isDigitC) ++ [Re.lit ['-']] ++
         List.replicate 2 (Re.one isDigitC) ++ [Re.lit ['-']] ++
         List.replicate 2 (Re.one isDigitC) ++ [Re.lit ['T']] ++
         List.replicate 2 (Re.one isDigitC) ++ [Re.lit [':']] ++
         List.replicate 2 (Re.one isDigitC) ++ [Re.lit [':']] ++
         List.replicate 2 (Re.one isDigitC) ++ [Re.lit ['.'], digits1, Re.lit ['Z'],
         Re.many1 isWS]),
   .lit "Compiling".toList, .many1 isWS, .many1 isNonSpaceC, .many1 isWS,
   .lit ['v'], .many1 isDigitDotC, .opt [.lit ['-'], .many1 isAlnumDotC], .many1 isWS,
   .lit ['('],
   .grp 1 [.manyL notNLC, .lit ['/'], .grp 2 [.many1 notSlashC], .lit ['/'],
           .grp 3 [.many1 notSlashParenC]],
   .lit [')']]

/-- The Go pattern (re.MULTILINE): `^FAIL\s+\S+/(\S+?)\s+[\d.]+s$` -/
def goRe : List Re :=
  [.bol, .lit "FAIL".toList, .many1 isWS, .many1 isNonSpaceC, .lit ['/'],
   .grp 1 [.many1L isNonSpaceC], .many1 isWS, .many1 isDigitDotC, .lit ['s'], .eol]

/-- Step 3 of `_extract_working_directory`: the Go detector. -/
def goStep (clean : Str) : Option Str :=
  (searchRe goRe clean).bind (fun st => getCap st 1)

/-- `_extract_working_directory`: strip ANSI escapes, try the Rust pattern
(returning `last` only when `parent != last`), then the Go pattern. -/
def extract_working_directory (log : Str) : Option Str :=
  let clean := ansiStrip log
  match searchRe rustRe clean with
  | some st =>
    if (getCap st 2).getD [] ≠ (getCap st 3).getD [] then some ((getCap st 3).getD [])
    else goStep clean
  | none => goStep clean

/-! ### String helpers mirroring the Python string operations -/

/-- `path.replace("\\", "/")`. -/
def backToSlash (p : Str) : Str := p.map (fun c => if c = '\\' then '/' else c)

/-- Python `s.split(sep)` for a single-character separator (keeps empties). -/
def splitOnC (sep : Char) : Str → List Str
  | [] => [[]]
  | c :: t =>
    match splitOnC sep t with
    | [] => [[]]
    | g :: gs => if c = sep then [] :: g :: gs else (c :: g) :: gs

/-- `"/".join(parts)`. -/
def joinSlash : List Str → Str
  | [] => []
  | [s] => s
  | s :: t => s ++ '/' :: joinSlash t

/-- `s.startswith(pat)`. -/
def startsWithB : Str → Str → Bool
  | [], _ => true
  | _ :: _, [] => false
  | c :: ct, d :: dt => c = d && startsWithB ct dt

/-- `pat in s` (substring containment). -/
def hasSub (pat : Str) : Str → Bool
  | [] => startsWithB pat []
  | c :: t => startsWithB pat (c :: t) || hasSub pat t

/-- The part of `s` after the first occurrence of `pat` (`s.split(pat, 1)[1]`
when `pat` occurs in `s`). -/
def afterFirst (pat : Str) : Str → Str
  | [] => []
  | c :: t => if startsWithB pat (c :: t) then (c :: t).drop pat.length else afterFirst pat t

/-- `s.replace(pat, rep, 1)`. -/
def replaceFirst (pat rep : Str) : Str → Str
  | [] => if startsWithB pat [] then rep else []
  | c :: t =>
    if startsWithB pat (c :: t) then rep ++ (c :: t).drop pat.length
    else c :: replaceFirst pat rep t

/-- `s.endswith(pat)`. -/
def endsWithB (pat s : Str) : Bool := startsWithB pat.reverse s.reverse

/-- `parts.index(x)` (first index), as an `Option`. -/
def idxOfSeg (x : Str) : List Str → Option Nat
  | [] => none
  | s :: t => if s = x then some 0 else (idxOfSeg x t).map (· + 1)

/-! ### Path normalization (`_normalize_file_path`) -/

def wrwMark : Str := "/home/runner/work/".toList
def workspaceMark : Str := "/workspace/".toList
def circleMark : Str := "/home/circleci/project/".toList
def projMark : Str := "/project/".toList

/-- `re.match(r"^[A-Za-z]:/a/", normalized)` (anchored at the start). -/
def winActionsPre (n : Str) : Bool :=
  match n with
  | c0 :: ':' :: '/' :: 'a' :: '/' :: _ => isAlphaC c0
  | _ => false

/-- `re.match(r"^[A-Za-z]:/(.+)", normalized)`, returning group 1.  The greedy
`(.+)` captures the maximal nonempty run of non-newline characters after the
drive prefix. -/
def driveMatch (n : Str) : Option Str :=
  match n with
  | c0 :: ':' :: '/' :: rest =>
    if isAlphaC c0 then
      match rest.takeWhile notNLC with
      | [] => none
      | r => some r
    else none
  | _ => none

/-- Final normalization steps: strip a leading `./`, reject `../` and other
absolute paths, otherwise keep the path. -/
def norm_tail (normalized : Str) : Option Str :=
  let n2 := if startsWithB "./".toList normalized then normalized.drop 2 else normalized
  if startsWithB "../".toList n2 then none
  else if startsWithB ['/'] n2 then none
  else some n2

/-- The generic Windows-drive rule: strip the drive letter; if the remainder
contains a `/project/` marker, keep the part after it. -/
def norm_drive_rule (normalized : Str) : Option Str :=
  match driveMatch normalized with
  | some remaining =>
    if hasSub projMark remaining then some (afterFirst projMark remaining)
    else some remaining
  | none => norm_tail normalized

/-- CircleCI rule: keep what follows `/home/circleci/project/`. -/
def norm_circle (normalized : Str) : Option Str :=
  if hasSub circleMark normalized then some (afterFirst circleMark normalized)
  else norm_drive_rule normalized

/-- Jenkins rule: a path starting with `/workspace/` drops that prefix. -/
def norm_workspace (normalized : Str) : Option Str :=
  if startsWithB workspaceMark normalized then
    some (replaceFirst workspaceMark [] normalized)
  else norm_circle normalized

/-- Linux GitHub Actions rule body: locate the first `work` segment and skip
it and the two repeated repo-name segments; `none` means fall through. -/
def workRule (normalized : Str) : Option Str :=
  let parts := splitOnC '/' normalized
  match idxOfSeg "work".toList parts with
  | some widx =>
    if widx + 3 < parts.length then some (joinSlash (parts.drop (widx + 3))) else none
  | none => none

def norm_linux (normalized : Str) : Option Str :=
  if hasSub wrwMark normalized then
    match workRule normalized with
    | some r => some r
    | none => norm_workspace normalized
  else norm_workspace normalized

/-- `_normalize_file_path`. -/
def normalize_file_path (path : Str) : Option Str :=
  let normalized := backToSlash path
  if winActionsPre normalized then
    if 4 < (splitOnC '/' normalized).length then
      some (joinSlash ((splitOnC '/' normalized).drop 4))
    else norm_linux normalized
  else norm_linux normalized

/-! ### Incomplete-path heuristic and validity filter -/

def generic_starts : List Str :=
  ["src/", "tests/", "test/", "lib/", "pkg/", "internal/", "cmd/"].map String.toList

/-- `_looks_like_incomplete_path`. -/
def looks_like_incomplete_path (path : Str) : Bool :=
  if !(decide ('/' ∈ path)) then true
  else generic_starts.any (fun pre => startsWithB pre path)

def skip_substrings : List Str :=
  ["/usr/", "/opt/", "/lib/", "/node_modules/", "site-packages/", ".venv/", "venv/"].map
    String.toList

def java_library_files : List Str :=
  ["ArrayList.java", "HashMap.java", "Method.java", "Class.java",
   "String.java", "Integer.java", "Object.java", "Thread.java",
   "AssertEquals.java", "Assertions.java", "AssertionFailureBuilder.java",
   "Test.java", "Before.java", "After.java", "Suite.java"].map String.toList

def valid_starts : List Str :=
  ["src/", "tests/", "test/", "lib/", "app/", "./", "../", "pkg/"].map String.toList

def extensionless_files : List Str :=
  ["Dockerfile", "Makefile", "Gemfile", "Rakefile", "CMakeLists.txt"].map String.toList

def source_extensions : List Str :=
  ["py", "js", "ts", "tsx", "jsx", "go", "rs", "rb", "java",
   "cpp", "c", "h", "cs", "php", "swift", "kt", "scala",
   "pyx", "cc", "hpp", "cxx"].map String.toList

/-- `path.split("/")[-1]` (the final segment; `splitOnC` is never empty). -/
def lastSeg (path : Str) : Str := ((splitOnC '/' path).getLast?).getD []

/-- `path.rsplit(".", 1)[1]` (the part after the last dot). -/
def extOf (path : Str) : Str := (path.reverse.takeWhile (fun c => !(c = '.'))).reverse

/-- `_is_valid_file_path`. -/
def is_valid_file_path (path : Str) : Bool :=
  if skip_substrings.any (fun pat => hasSub pat path) then false
  else if path.length < 3 || 200 < path.length then false
  else if endsWithB ".java".toList path && decide (lastSeg path ∈ java_library_files) then
    false
  else if valid_starts.any (fun pre => startsWithB pre path) then true
  else if extensionless_files.any
      (fun f => decide (path = f) || startsWithB (f ++ ['.']) path) then true
  else if !(decide ('/' ∈ path)) && decide ('.' ∈ path) then true
  else if decide ('.' ∈ path) && decide (extOf path ∈ source_extensions) then true
  else false

/-! ### Aggregation (`parse_affected_files`) -/

/-- The output record.  `description` is never populated by the extraction
engine; identity (hash/equality in the source) is the triple
`(file_path, line_start, line_end)`. -/
structure AffectedFile where
  file_path : Str
  line_start : Option Int := none
  line_end : Option Int := none
  description : Option Str := none
  deriving DecidableEq

def identTriple (f : AffectedFile) : Str × Option Int × Option Int :=
  (f.file_path, f.line_start, f.line_end)

/-- Python `set.add`: keep the element already present on identity collision. -/
def addUnique (acc : List AffectedFile) (f : AffectedFile) : List AffectedFile :=
  if acc.any (fun g => decide (identTriple g = identTriple f)) then acc else acc ++ [f]

/-- `int(line_str) if line_str else None`, with a missing group (`IndexError`)
degrading to `none`.  The group, when present, was matched by `\d+`. -/
def digitVal (c : Char) : Int := Int.ofNat (c.toNat - 48)

def strToInt (s : Str) : Int := s.foldl (fun acc c => acc * 10 + digitVal c) 0

def parseLine (l : Option Str) : Option Int :=
  match l with
  | none => none
  | some cs => if cs = [] then none else some (strToInt cs)

/-- One raw match: the `file` group and the optional `line` group. -/
def patMatches (re : List Re) (log : Str) : List (Str × Option Str) :=
  (finditRe re log).map (fun st => ((getCap st 1).getD [], getCap st 2))

/-- All raw matches, pattern by pattern in battery order. -/
def allMatches (log : Str) : List (Str × Option Str) :=
  (FILE_PATTERNS.map (fun re => patMatches re log)).flatten

/-- Lines 86–90 of the source: normalize, then prepend the working directory
when one was inferred and the normalized path looks incomplete.  The
`working_dir and normalized_path` truthiness guard of the source means both
strings must also be non-empty for the prepending to happen. -/
def candidate_path (working_dir : Option Str) (raw : Str) : Option Str :=
  match normalize_file_path raw with
  | some np =>
    match working_dir with
    | some wd =>
      if wd ≠ [] ∧ np ≠ [] ∧ looks_like_incomplete_path np = true then
        some (wd ++ '/' :: np)
      else some np
    | none => some np
  | none => none

/-- The body of the extraction loop: validate the candidate and add it to the
deduplicating accumulator. -/
def accStep (working_dir : Option Str) (acc : List AffectedFile)
    (m : Str × Option Str) : List AffectedFile :=
  match candidate_path working_dir m.1 with
  | some np =>
    if is_valid_file_path np then addUnique acc ⟨np, parseLine m.2, none, none⟩ else acc
  | none => acc

/-- Python string `<` (code-point lexicographic). -/
def strLtB : Str → Str → Bool
  | [], [] => false
  | [], _ :: _ => true
  | _ :: _, [] => false
  | a :: s, b :: t => if a < b then true else if b < a then false else strLtB s t

/-- The sort key order `(file_path, line_start or 0)` of the final
`sorted(...)` call. -/
def keyLe (a b : AffectedFile) : Bool :=
  strLtB a.file_path b.file_path ||
    (decide (a.file_path = b.file_path) &&
     decide (a.line_start.getD 0 ≤ b.line_start.getD 0))

def keyLeP (a b : AffectedFile) : Prop := keyLe a b = true

instance : DecidableRel keyLeP := fun _ _ => inferInstanceAs (Decidable (_ = true))

/-- `parse_affected_files`: run every pattern over the whole log, build the
deduplicated set in battery order, and sort by `(file_path, line_start or 0)`.
(`List.insertionSort` is a stable sort, like Python's `sorted`.) -/
def parse_affected_files (log : Str) : List AffectedFile :=
  let working_dir := extract_working_directory log
  List.insertionSort keyLeP ((allMatches log).foldl (accStep working_dir) [])

/-- Variant of `parse_affected_files` that evaluates the pattern battery in
reversed order (used to probe order-independence of the aggregation). -/
def parse_affected_files_rulerev (log : Str) : List AffectedFile :=
  let working_dir := extract_working_directory log
  List.insertionSort keyLeP
    (((FILE_PATTERNS.reverse.map (fun re => patMatches re log)).flatten).foldl
      (accStep working_dir) [])

/-! ## Order lemmas for the sort key -/

theorem strLtB_cons {x y : Char} {xs ys : Str} :
    strLtB (x :: xs) (y :: ys) = true ↔ x < y ∨ (x = y ∧ strLtB xs ys = true) := by
  simp only [strLtB]
  split_ifs with h1 h2
  · simp [h1]
  · simp only [Bool.false_eq_true, false_iff]
    rintro (h | ⟨rfl, -⟩)
    · exact h1 h
    · exact lt_irrefl _ h2
  · have hxy : x = y := le_antisymm (le_of_not_lt h2) (le_of_not_lt h1)
    subst hxy
    simp [lt_irrefl]

theorem strLtB_trans : ∀ (a b c : Str),
    strLtB a b = true → strLtB b c = true → strLtB a c = true
  | [], [], _, h1, _ => absurd h1 (by simp [strLtB])
  | [], _ :: _, [], _, h2 => absurd h2 (by simp [strLtB])
  | [], _ :: _, _ :: _, _, _ => by simp [strLtB]
  | _ :: _, [], _, h1, _ => absurd h1 (by simp [strLtB])
  | _ :: _, _ :: _, [], _, h2 => absurd h2 (by simp [strLtB])
  | x :: xs, y :: ys, z :: zs, h1, h2 => by
    rcases strLtB_cons.1 h1 with h | ⟨rfl, h⟩ <;> rcases strLtB_cons.1 h2 with g | ⟨rfl, g⟩
    · exact strLtB_cons.2 (Or.inl (lt_trans h g))
    · exact strLtB_cons.2 (Or.inl h)
    · exact strLtB_cons.2 (Or.inl g)
    · exact strLtB_cons.2 (Or.inr ⟨rfl, strLtB_trans xs ys zs h g⟩)

theorem strLtB_conn : ∀ (a b : Str), a ≠ b → strLtB a b = true ∨ strLtB b a = true
  | [], [], h => absurd rfl h
  | [], _ :: _, _ => Or.inl (by simp [strLtB])
  | _ :: _, [], _ => Or.inr (by simp [strLtB])
  | x :: xs, y :: ys, h => by
    rcases lt_trichotomy x y with hx | rfl | hx
    · exact Or.inl (strLtB_cons.2 (Or.inl hx))
    · have hne : xs ≠ ys := fun he => h (by rw [he])
      rcases strLtB_conn xs ys hne with h2 | h2
      · exact Or.inl (strLtB_cons.2 (Or.inr ⟨rfl, h2⟩))
      · exact Or.inr (strLtB_cons.2 (Or.inr ⟨rfl, h2⟩))
    · exact Or.inr (strLtB_cons.2 (Or.inl hx))

theorem keyLe_iff {a b : AffectedFile} :
    keyLe a b = true ↔ strLtB a.file_path b.file_path = true ∨
      (a.file_path = b.file_path ∧ a.line_start.getD 0 ≤ b.line_start.getD 0) := by
  simp [keyLe]

instance : IsTotal AffectedFile keyLeP :=
  ⟨fun a b => by
    unfold keyLeP
    by_cases h : a.file_path = b.file_path
    · rcases le_total (a.line_start.getD 0) (b.line_start.getD 0) with hle | hle
      · exact Or.inl (keyLe_iff.2 (Or.inr ⟨h, hle⟩))
      · exact Or.inr (keyLe_iff.2 (Or.inr ⟨h.symm, hle⟩))
    · rcases strLtB_conn _ _ h with h2 | h2
      · exact Or.inl (keyLe_iff.2 (Or.inl h2))
      · exact Or.inr (keyLe_iff.2 (Or.inl h2))⟩

instance : IsTrans AffectedFile keyLeP :=
  ⟨fun a b c hab hbc => by
    unfold keyLeP at *
    rcases keyLe_iff.1 hab with h | ⟨he, hl⟩ <;> rcases keyLe_iff.1 hbc with g | ⟨ge, gl⟩
    · exact keyLe_iff.2 (Or.inl (strLtB_trans _ _ _ h g))
    · exact keyLe_iff.2 (Or.inl (by rw [← ge]; exact h))
    · exact keyLe_iff.2 (Or.inl (by rw [he]; exact g))
    · exact keyLe_iff.2 (Or.inr ⟨he.trans ge, le_trans hl gl⟩)⟩

/-! ## Invariants of the accumulation loop -/

/-- What every record added by the extraction loop satisfies. -/
def goodFile (a : AffectedFile) : Prop :=
  is_valid_file_path a.file_path = true ∧ a.line_end = none ∧ a.description = none ∧
    (a.line_start = none ∨ ∃ n : Int, a.line_start = some n ∧ 0 ≤ n)

theorem foldl_digit_nonneg : ∀ (cs : Str) (acc : Int), 0 ≤ acc →
    0 ≤ cs.foldl (fun acc c => acc * 10 + digitVal c) acc
  | [], _, h => h
  | c :: t, acc, h =>
    foldl_digit_nonneg t _
      (add_nonneg (mul_nonneg h (by norm_num)) (Int.ofNat_nonneg _))

theorem strToInt_nonneg (s : Str) : 0 ≤ strToInt s := foldl_digit_nonneg s 0 le_rfl

theorem parseLine_good (l : Option Str) :
    parseLine l = none ∨ ∃ n, parseLine l = some n ∧ 0 ≤ n := by
  unfold parseLine
  cases l with
  | none => exact Or.inl rfl
  | some cs =>
    by_cases hc : cs = []
    · simp [hc]
    · simp only [if_neg hc]
      exact Or.inr ⟨_, rfl, strToInt_nonneg cs⟩

theorem mem_addUnique {acc : List AffectedFile} {f a : AffectedFile}
    (h : a ∈ addUnique acc f) : a ∈ acc ∨ a = f := by
  unfold addUnique at h
  split at h
  · exact Or.inl h
  · rcases List.mem_append.1 h with h | h
    · exact Or.inl h
    · exact Or.inr (List.mem_singleton.1 h)

theorem mem_accStep {wd : Option Str} {acc : List AffectedFile}
    {m : Str × Option Str} {a : AffectedFile} (h : a ∈ accStep wd acc m) :
    a ∈ acc ∨ goodFile a := by
  unfold accStep at h
  split at h
  · split at h
    · rcases mem_addUnique h with h | rfl
      · exact Or.inl h
      · exact Or.inr ⟨by assumption, rfl, rfl, parseLine_good _⟩
    · exact Or.inl h
  · exact Or.inl h

theorem mem_foldl_accStep {wd : Option Str} :
    ∀ (ms : List (Str × Option Str)) (acc : List AffectedFile) (a : AffectedFile),
      a ∈ ms.foldl (accStep wd) acc → a ∈ acc ∨ goodFile a
  | [], _, _, h => Or.inl h
  | m :: ms, acc, a, h => by
    rcases mem_foldl_accStep ms (accStep wd acc m) a h with h2 | h2
    · exact mem_accStep h2
    · exact Or.inr h2

theorem mem_parse {log : Str} {a : AffectedFile}
    (h : a ∈ parse_affected_files log) : goodFile a := by
  unfold parse_affected_files at h
  rcases mem_foldl_accStep _ _ _ ((List.mem_insertionSort keyLeP).1 h) with h2 | h2
  · exact absurd h2 (List.not_mem_nil a)
  · exact h2

theorem valid_length {p : Str} (h : is_valid_file_path p = true) :
    3 ≤ p.length ∧ p.length ≤ 200 := by
  unfold is_valid_file_path at h
  split at h
  · simp at h
  · split at h
    · simp at h
    · next h2 =>
        simp only [Bool.or_eq_true, decide_eq_true_eq, not_or] at h2
        omega

/-! ## Deduplication invariant -/

theorem pairwise_addUnique {acc : List AffectedFile} {f : AffectedFile}
    (h : acc.Pairwise (fun a b => identTriple a ≠ identTriple b)) :
    (addUnique acc f).Pairwise (fun a b => identTriple a ≠ identTriple b) := by
  unfold addUnique
  split
  · exact h
  · next hany =>
      refine List.pairwise_append.2 ⟨h, List.pairwise_singleton _ _, ?_⟩
      intro a ha b hb
      rcases List.mem_singleton.1 hb with rfl
      intro he
      exact hany (List.any_eq_true.2 ⟨a, ha, by simp [he]⟩)

theorem pairwise_accStep {wd : Option Str} {acc : List AffectedFile}
    {m : Str × Option Str}
    (h : acc.Pairwise (fun a b => identTriple a ≠ identTriple b)) :
    (accStep wd acc m).Pairwise (fun a b => identTriple a ≠ identTriple b) := by
  unfold accStep
  split
  · split
    · exact pairwise_addUnique h
    · exact h
  · exact h

theorem pairwise_foldl_accStep {wd : Option Str} :
    ∀ (ms : List (Str × Option Str)) (acc : List AffectedFile),
      acc.Pairwise (fun a b => identTriple a ≠ identTriple b) →
      (ms.foldl (accStep wd) acc).Pairwise (fun a b => identTriple a ≠ identTriple b)
  | [], _, h => h
  | _ :: ms, _, h => pairwise_foldl_accStep ms _ (pairwise_accStep h)

/-! ## Claim C1 -/

def c1LogA : Str := "src/../x.py:5".toList
def c1LogB : Str := "/workspace//x.py:3".toList

/-- C1: the claim "every path in the output of `parse_affected_files` is
non-empty, never starts with `/`, and never contains a `..` segment" is false
on the code: the log `src/../x.py:5` yields the path `src/../x.py`, which has
a `..` segment (normalization only rejects paths *starting* with `../`), and
the log `/workspace//x.py:3` yields the path `/x.py`, which starts with `/`
(stripping the `/workspace/` prefix of a double-slash path leaves a leading
slash that the validity filter does not reject). -/
theorem C1_counterexample :
    (∃ f ∈ parse_affected_files c1LogA, "..".toList ∈ splitOnC '/' f.file_path) ∧
    (∃ f ∈ parse_affected_files c1LogB, startsWithB ['/'] f.file_path = true) := by
  decide

/-- C1 (amended): for every input log, every path in the output of
`parse_affected_files` is non-empty (the validity filter enforces a length of
at least 3). -/
theorem C1_amended (log : Str) (f : AffectedFile)
    (hf : f ∈ parse_affected_files log) : f.file_path ≠ [] := by
  have hl := (valid_length (mem_parse hf).1).1
  intro he
  rw [he] at hl
  simp at hl

theorem C1_witness :
    (AffectedFile.mk "src/a.py".toList (some 5) none none).file_path ≠ [] :=
  C1_amended "src/a.py:5".toList _ (by decide)

/-! ## Claim C4 -/

def c4Log : Str :=
  ("src/types.py:1: error\nsrc/types.py:1: note\nsrc/main.py:10: error\nsrc/types.py:1: error").toList

/-- C4: for every input log, the output of `parse_affected_files` contains no
two references with identical identity triples `(path, line_start, line_end)`;
in particular a `(path, line)` pair textually repeated three times appears
exactly once in the output. -/
theorem C4_dedup :
    (∀ log : Str,
      (parse_affected_files log).Pairwise (fun a b => identTriple a ≠ identTriple b)) ∧
    parse_affected_files c4Log =
      [⟨"src/main.py".toList, some 10, none, none⟩,
       ⟨"src/types.py".toList, some 1, none, none⟩] := by
  constructor
  · intro log
    unfold parse_affected_files
    exact (List.Perm.pairwise_iff (fun h => h.symm)
        (List.perm_insertionSort keyLeP _)).2
      (pairwise_foldl_accStep _ _ (List.Pairwise.nil))
  · decide

/-! ## Claim C5 -/

def c5Log : Str := "mypy: \"src/x.py\"\nsrc/x.py:0".toList

/-- C5: the claim that the output ordering is independent of the internal
pattern-evaluation order is false: on a log producing the same path once with
no line number (sort key 0) and once with line number 0, the two references
tie on the sort key `(path, line_start or 0)`, and the stable sort preserves
the insertion order, which depends on the battery order. -/
theorem C5_counterexample :
    parse_affected_files c5Log ≠ parse_affected_files_rulerev c5Log := by
  decide

/-- C5 (amended): for every input log the output of `parse_affected_files` is
sorted ascending by the key `(path, line_start treated as 0 when absent)`,
lexicographic on path; the ordering is deterministic only up to references
with equal sort keys, whose relative order follows the accumulation order. -/
theorem C5_amended (log : Str) : (parse_affected_files log).Sorted keyLeP := by
  unfold parse_affected_files
  exact List.sorted_insertionSort keyLeP _

/-! ## Claim C8 -/

def c8Log : Str := "src/x.py:0".toList

/-- C8: the claim that `line_start` is absent or at least 1 is false: the log
`src/x.py:0` yields a reference whose `line_start` is present and equal to 0
(the generic `file:line` rule matches `\d+`, and `int("0")` is 0). -/
theorem C8_counterexample :
    ∃ f ∈ parse_affected_files c8Log,
      f.line_start = some 0 ∧ ¬(∀ n : Int, f.line_start = some n → 1 ≤ n) :=
  ⟨⟨"src/x.py".toList, some 0, none, none⟩, by decide, rfl,
    fun hall => absurd (hall 0 rfl) (by norm_num)⟩

/-- C8 (amended): for every input log, every reference in the output has
`line_start` either absent or a non-negative integer (a parsed run of digits;
0 is possible). -/
theorem C8_amended (log : Str) (f : AffectedFile)
    (hf : f ∈ parse_affected_files log) :
    f.line_start = none ∨ ∃ n : Int, f.line_start = some n ∧ 0 ≤ n :=
  (mem_parse hf).2.2.2

theorem C8_witness :
    (AffectedFile.mk "src/b.py".toList (some 7) none none).line_start = none ∨
      ∃ n : Int,
        (AffectedFile.mk "src/b.py".toList (some 7) none none).line_start = some n ∧ 0 ≤ n :=
  C8_amended "src/b.py:7".toList _ (by decide)

/-! ## Claim C9 -/

def c9Log : Str := "src/".toList ++ List.replicate 193 'a' ++ ".py:1".toList

/-- C9: the claim that every output path is strictly shorter than 200
characters is false: the validity filter rejects only lengths above 200, so a
200-character path is emitted. -/
theorem C9_counterexample :
    ∃ f ∈ parse_affected_files c9Log,
      f.file_path.length = 200 ∧ ¬(f.file_path.length < 200) := by
  decide

/-- C9 (amended): for every input log, every path in the output of
`parse_affected_files` has length at least 3 and at most 200 (inclusive). -/
theorem C9_amended (log : Str) (f : AffectedFile)
    (hf : f ∈ parse_affected_files log) :
    3 ≤ f.file_path.length ∧ f.file_path.length ≤ 200 :=
  valid_length (mem_parse hf).1

theorem C9_witness :
    3 ≤ (AffectedFile.mk "src/c.py".toList (some 2) none none).file_path.length ∧
      (AffectedFile.mk "src/c.py".toList (some 2) none none).file_path.length ≤ 200 :=
  C9_amended "src/c.py:2".toList _ (by decide)

/-! ## Claim C2 -/

def c2Log : Str :=
  "Compiling rust-app v0.1.0 (/home/runner/work/repo/repo/rust-app)\npanicked at src/lib.rs:11:9".toList

/-- C2: when a (necessarily non-empty) working directory was inferred, every
candidate whose non-empty normalized path looks incomplete (no `/`, or a
generic top-level folder start) has `<working_directory>/` prepended before
validation; in particular the Rust scenario log yields the reference
`("rust-app/src/lib.rs", 11)`. -/
theorem C2_workdir_prepend :
    (∀ (wd raw np : Str), wd ≠ [] → np ≠ [] →
      normalize_file_path raw = some np →
      looks_like_incomplete_path np = true →
      candidate_path (some wd) raw = some (wd ++ '/' :: np)) ∧
    (⟨"rust-app/src/lib.rs".toList, some 11, none, none⟩ : AffectedFile) ∈
      parse_affected_files c2Log := by
  constructor
  · intro wd raw np hwd hnp h1 h2
    unfold candidate_path
    rw [h1]
    simp [hwd, hnp, h2]
  · decide

theorem C2_witness :
    candidate_path (some "rust-app".toList) "src/lib.rs".toList =
      some ("rust-app".toList ++ '/' :: "src/lib.rs".toList) :=
  C2_workdir_prepend.1 _ _ _ (by decide) (by decide) (by decide) (by decide)

/-! ## Claim C3 -/

/-- Whether the Rust detector matched with `parent == last`. -/
def parentLastEqB : Option MState → Bool
  | none => false
  | some st => decide ((getCap st 2).getD [] = (getCap st 3).getD [])

def c3Log : Str :=
  "Compiling myapp v0.1.0 (/home/runner/work/repo/repo)\nFAIL example.com/go-app 0.002s".toList

/-- C3: the claim "if source A matches with parent == last, inference returns
no inferred directory and source B is not consulted" is false on the code:
when `parent == last` the function falls through to the Go detector, so a log
whose Compiling line is a root project but which also has a Go FAIL line
yields `some "go-app"`, not none. -/
theorem C3_counterexample :
    parentLastEqB (searchRe rustRe (ansiStrip c3Log)) = true ∧
    extract_working_directory c3Log = some "go-app".toList := by
  decide

/-- C3 (amended): if the compiled-package announcement (source A) matches
with `parent == last`, source A yields no directory but source B (the Go
detector) is still consulted: the inference returns exactly the Go detector's
result (and hence none only when that also fails). -/
theorem C3_amended (log : Str)
    (h : parentLastEqB (searchRe rustRe (ansiStrip log)) = true) :
    extract_working_directory log = goStep (ansiStrip log) := by
  simp only [extract_working_directory]
  cases hs : searchRe rustRe (ansiStrip log) with
  | none => rfl
  | some st =>
    rw [hs] at h
    simp only [parentLastEqB, decide_eq_true_eq] at h
    simp [h]

theorem C3_witness :
    extract_working_directory c3Log = goStep (ansiStrip c3Log) :=
  C3_amended c3Log (by decide)

/-! ## Claim C7 -/

def c7Log : Str :=
  "at org.junit.Assert.assertEquals(AssertEquals.java:150)\nat com.example.AppTest.testAdd(AppTest.java:9)".toList

/-- C7: a normalized path ending in `.java` whose basename is on the JVM
library/test-framework denylist is rejected by the validity filter; the mixed
JUnit stack-trace scenario keeps `AppTest.java` and drops
`AssertEquals.java`. -/
theorem C7_java_denylist :
    (∀ path : Str, endsWithB ".java".toList path = true →
      lastSeg path ∈ java_library_files → is_valid_file_path path = false) ∧
    parse_affected_files c7Log = [⟨"AppTest.java".toList, some 9, none, none⟩] := by
  constructor
  · intro path h1 h2
    unfold is_valid_file_path
    split
    · rfl
    · split
      · rfl
      · rw [if_pos (by
          simp only [Bool.and_eq_true, decide_eq_true_eq]
          exact ⟨h1, h2⟩)]
  · decide

theorem C7_witness : is_valid_file_path "AssertEquals.java".toList = false :=
  C7_java_denylist.1 _ (by decide) (by decide)

/-! ## Claim C10 -/

/-- Slash count, used to bound the number of split parts. -/
def countC (sep : Char) : Str → Nat
  | [] => 0
  | c :: t => (if c = sep then 1 else 0) + countC sep t

theorem splitOnC_ne_nil (sep : Char) : ∀ s : Str, splitOnC sep s ≠ []
  | [] => by simp [splitOnC]
  | c :: t => by
    simp only [splitOnC]
    split
    · simp
    · split <;> simp

theorem splitOnC_length (sep : Char) : ∀ s : Str,
    (splitOnC sep s).length = countC sep s + 1
  | [] => by simp [splitOnC, countC]
  | c :: t => by
    have ih := splitOnC_length sep t
    cases h : splitOnC sep t with
    | nil => exact absurd h (splitOnC_ne_nil sep t)
    | cons g gs =>
      rw [h] at ih
      simp only [List.length_cons] at ih
      simp only [splitOnC, h, countC]
      by_cases hc : c = sep
      · simp only [if_pos hc, List.length_cons]
        omega
      · simp only [if_neg hc, List.length_cons]
        omega

theorem startsWithB_count (c : Char) : ∀ (pat s : Str), startsWithB pat s = true →
    countC c pat ≤ countC c s
  | [], s, _ => by simp [countC]
  | _ :: _, [], h => by simp [startsWithB] at h
  | p :: pt, d :: dt, h => by
    simp only [startsWithB, Bool.and_eq_true, decide_eq_true_eq] at h
    obtain ⟨rfl, h2⟩ := h
    have := startsWithB_count c pt dt h2
    simp only [countC]
    omega

theorem hasSub_count (c : Char) : ∀ (pat s : Str), hasSub pat s = true →
    countC c pat ≤ countC c s
  | pat, [], h => startsWithB_count c pat [] (by simpa [hasSub] using h)
  | pat, d :: dt, h => by
    simp only [hasSub, Bool.or_eq_true] at h
    rcases h with h | h
    · exact startsWithB_count c pat (d :: dt) h
    · have := hasSub_count c pat dt h
      simp only [countC]
      omega

theorem startsWithB_cons_head {p d : Char} {pt dt : Str}
    (h : startsWithB (p :: pt) (d :: dt) = true) : p = d := by
  simp only [startsWithB, Bool.and_eq_true, decide_eq_true_eq] at h
  exact h.1

theorem winActionsPre_shape {n : Str} (h : winActionsPre n = true) :
    ∃ c0 rest, n = c0 :: ':' :: '/' :: 'a' :: '/' :: rest ∧ isAlphaC c0 = true := by
  unfold winActionsPre at h
  split at h
  · next c0 rest => exact ⟨c0, rest, rfl, h⟩
  · simp at h

/-- C10: the claim that a short `<drive>:/a/...` path (at most four
slash-separated parts) is normalized to the path with only the drive letter
removed is false: the generic drive-letter rule also applies its `/project/`
sub-rule, so `D:/a/project/x.py` normalizes to `x.py`, not
`a/project/x.py`. -/
theorem C10_counterexample :
    normalize_file_path "D:/a/project/x.py".toList = some "x.py".toList ∧
    normalize_file_path "D:/a/project/x.py".toList ≠ some "a/project/x.py".toList := by
  decide

/-- C10 (amended): for every raw path matching the Windows CI-runner prefix
`<drive>:/a/` (after backslash conversion) with at most four slash-separated
parts, normalization does not strip the runner prefix but falls through to
the generic drive-letter rule (`norm_drive_rule`): the drive-stripped
remainder up to a newline is returned, except that when it contains a
`/project/` marker the part after that marker is returned instead. -/
theorem C10_amended (p : Str) (h1 : winActionsPre (backToSlash p) = true)
    (h2 : (splitOnC '/' (backToSlash p)).length ≤ 4) :
    normalize_file_path p = norm_drive_rule (backToSlash p) := by
  have hcount : countC '/' (backToSlash p) ≤ 3 := by
    have := splitOnC_length '/' (backToSlash p)
    omega
  obtain ⟨c0, rest, hshape, halpha⟩ := winActionsPre_shape h1
  have hwrw : ¬(hasSub wrwMark (backToSlash p) = true) := fun hw => by
    have hc := hasSub_count '/' wrwMark (backToSlash p) hw
    have h4 : countC '/' wrwMark = 4 := by decide
    omega
  have hcir : ¬(hasSub circleMark (backToSlash p) = true) := fun hw => by
    have hc := hasSub_count '/' circleMark (backToSlash p) hw
    have h4 : countC '/' circleMark = 4 := by decide
    omega
  have hws : ¬(startsWithB workspaceMark (backToSlash p) = true) := fun hw => by
    rw [hshape, show workspaceMark = '/' :: "workspace/".toList from by decide] at hw
    rw [← startsWithB_cons_head hw] at halpha
    exact absurd halpha (by decide)
  simp only [normalize_file_path]
  rw [if_pos h1, if_neg (by omega)]
  unfold norm_linux
  rw [if_neg hwrw]
  unfold norm_workspace
  rw [if_neg hws]
  unfold norm_circle
  rw [if_neg hcir]

theorem C10_witness :
    normalize_file_path "D:/a/repo/file.py".toList =
      norm_drive_rule (backToSlash "D:/a/repo/file.py".toList) ∧
    norm_drive_rule (backToSlash "D:/a/repo/file.py".toList) =
      some "a/repo/file.py".toList :=
  ⟨C10_amended _ (by decide) (by decide), by decide⟩

/-! ## Claim C6: whitespace-only logs

`nonWSFirst fuel res` is a sufficient syntactic condition for "any successful
match of `res` must consume at least one non-whitespace character"; it holds
for every pattern of the battery, and all-whitespace input therefore admits
no match at any position. -/

/-- The class `p` rejects every whitespace character. -/
def exclWS (p : Char → Bool) : Bool := wsChars.all (fun c => !(p c))

def nonWSFirst : Nat → List Re → Bool
  | _, [] => false
  | 0, _ :: _ => false
  | Nat.succ fuel, Re.lit cs :: rs => cs.any (fun c => !(isWS c)) || nonWSFirst fuel rs
  | Nat.succ _, Re.one p :: _ => exclWS p
  | Nat.succ fuel, Re.many p :: rs => exclWS p && nonWSFirst fuel rs
  | Nat.succ _, Re.many1 p :: _ => exclWS p
  | Nat.succ fuel, Re.manyL p :: rs => exclWS p && nonWSFirst fuel rs
  | Nat.succ _, Re.many1L p :: _ => exclWS p
  | Nat.succ fuel, Re.opt body :: rs => nonWSFirst fuel (body ++ rs) && nonWSFirst fuel rs
  | Nat.succ fuel, Re.alts cs :: rs => cs.all (fun c => nonWSFirst fuel (c ++ rs))
  | Nat.succ fuel, Re.grp i body :: rs => nonWSFirst fuel (body ++ Re.grpEnd i :: rs)
  | Nat.succ fuel, Re.grpEnd _ :: rs => nonWSFirst fuel rs
  | Nat.succ fuel, Re.bol :: rs => nonWSFirst fuel rs
  | Nat.succ fuel, Re.eol :: rs => nonWSFirst fuel rs

theorem exclWS_not {p : Char → Bool} {c : Char} (he : exclWS p = true)
    (hc : isWS c = true) : p c = false := by
  have hm : c ∈ wsChars := by simpa [isWS] using hc
  have := List.all_eq_true.1 he c hm
  simpa using this

theorem countWhile_ws {p : Char → Bool} {s : Str} (hs : ∀ c ∈ s, isWS c = true)
    (he : exclWS p = true) : countWhile p s = 0 := by
  cases s with
  | nil => rfl
  | cons c t =>
    simp [countWhile, exclWS_not he (hs c (List.mem_cons_self c t))]

theorem advance_zero (st : MState) : advance st 0 = st := by simp [advance]

theorem closeGrp_rest (i : Nat) (st : MState) : (closeGrp i st).rest = st.rest := by
  unfold closeGrp
  split <;> rfl

theorem eatChars_ws_rest : ∀ (cs : Str) (prev : Option Char) (rest : Str)
    (pr : Option Char × Str), (∀ c ∈ rest, isWS c = true) →
    eatChars cs prev rest = some pr → ∀ c ∈ pr.2, isWS c = true
  | [], _, _, _, hs, h => by
    cases h
    exact hs
  | _ :: _, _, [], _, _, h => by simp [eatChars] at h
  | c :: cs, _, d :: t, pr, hs, h => by
    simp only [eatChars] at h
    split at h
    · exact eatChars_ws_rest cs (some d) t pr
        (fun x hx => hs x (List.mem_cons_of_mem d hx)) h
    · exact absurd h (by simp)

theorem eatChars_ws_none : ∀ (cs : Str) (prev : Option Char) (rest : Str),
    (∀ c ∈ rest, isWS c = true) → cs.any (fun c => !(isWS c)) = true →
    eatChars cs prev rest = none
  | [], _, _, _, ha => by simp at ha
  | _ :: _, _, [], _, _ => rfl
  | c :: cs, _, d :: t, hs, ha => by
    simp only [eatChars]
    by_cases hcd : c = d
    · rw [if_pos hcd]
      have hd : isWS d = true := hs d (List.mem_cons_self d t)
      have hc : isWS c = true := by rw [hcd]; exact hd
      have ha2 : cs.any (fun x => !(isWS x)) = true := by
        simpa [List.any_cons, hc] using ha
      exact eatChars_ws_none cs (some d) t
        (fun x hx => hs x (List.mem_cons_of_mem d hx)) ha2
    · rw [if_neg hcd]

theorem firstAlt_none {f : List Re → Option MState} :
    ∀ (cs : List (List Re)), (∀ c ∈ cs, f c = none) → firstAlt f cs = none
  | [], _ => rfl
  | c :: cs, h => by
    simp only [firstAlt]
    rw [h c (List.mem_cons_self c cs)]
    exact firstAlt_none cs (fun d hd => h d (List.mem_cons_of_mem c hd))

theorem mrun_ws : ∀ (fuel : Nat) (res : List Re) (st : MState),
    nonWSFirst fuel res = true → (∀ c ∈ st.rest, isWS c = true) →
    mrun fuel res st = none := by
  intro fuel
  induction fuel with
  | zero =>
    intro res st h _
    cases res with
    | nil => simp [nonWSFirst] at h
    | cons r rs => simp [nonWSFirst] at h
  | succ fuel ih =>
    intro res st h hs
    cases res with
    | nil => simp [nonWSFirst] at h
    | cons r rs =>
      cases r with
      | lit cs =>
        simp only [nonWSFirst, Bool.or_eq_true] at h
        simp only [mrun]
        unfold eatLit
        rcases h with h | h
        · rw [eatChars_ws_none cs st.prev st.rest hs h]
          rfl
        · cases he : eatChars cs st.prev st.rest with
          | none => rfl
          | some pr =>
            simp only [Option.map_some']
            exact ih rs _ h (eatChars_ws_rest cs st.prev st.rest pr hs he)
      | one p =>
        simp only [nonWSFirst] at h
        simp only [mrun]
        cases hr : st.rest with
        | nil => rfl
        | cons c t =>
          simp [exclWS_not h (hs c (by rw [hr]; exact List.mem_cons_self c t))]
      | many p =>
        simp only [nonWSFirst, Bool.and_eq_true] at h
        simp only [mrun]
        rw [countWhile_ws hs h.1]
        simp only [tryDown, advance_zero]
        exact ih rs st h.2 hs
      | many1 p =>
        simp only [nonWSFirst] at h
        simp only [mrun]
        rw [countWhile_ws hs h]
        rfl
      | manyL p =>
        simp only [nonWSFirst, Bool.and_eq_true] at h
        simp only [mrun]
        rw [countWhile_ws hs h.1]
        simp only [tryUp, advance_zero]
        exact ih rs st h.2 hs
      | many1L p =>
        simp only [nonWSFirst] at h
        simp only [mrun]
        rw [countWhile_ws hs h]
      | opt body =>
        simp only [nonWSFirst, Bool.and_eq_true] at h
        simp only [mrun]
        rw [ih (body ++ rs) st h.1 hs, ih rs st h.2 hs]
        rfl
      | alts cs =>
        simp only [nonWSFirst] at h
        simp only [mrun]
        exact firstAlt_none cs (fun c hc => ih (c ++ rs) st (List.all_eq_true.1 h c hc) hs)
      | grp i body =>
        simp only [nonWSFirst] at h
        simp only [mrun]
        exact ih (body ++ Re.grpEnd i :: rs) _ h hs
      | grpEnd i =>
        simp only [nonWSFirst] at h
        simp only [mrun]
        refine ih rs _ h ?_
        rw [closeGrp_rest]
        exact hs
      | bol =>
        simp only [nonWSFirst] at h
        simp only [mrun]
        split
        · exact ih rs st h hs
        · rfl
      | eol =>
        simp only [nonWSFirst] at h
        simp only [mrun]
        split
        · exact ih rs st h hs
        · rfl

theorem finditAux_ws (re : List Re) (hre : nonWSFirst reFuel re = true) :
    ∀ (fuel : Nat) (prev : Option Char) (s : Str),
      (∀ c ∈ s, isWS c = true) → finditAux re fuel prev s = []
  | 0, _, _, _ => rfl
  | Nat.succ fuel, prev, s, hs => by
    unfold finditAux
    rw [mrun_ws reFuel re ⟨prev, s, [], []⟩ hre hs]
    cases s with
    | nil => rfl
    | cons c t =>
      simp only [finditStep]
      exact finditAux_ws re hre fuel (some c) t
        (fun x hx => hs x (List.mem_cons_of_mem c hx))

theorem finditRe_ws (re : List Re) (hre : nonWSFirst reFuel re = true) (s : Str)
    (hs : ∀ c ∈ s, isWS c = true) : finditRe re s = [] :=
  finditAux_ws re hre (s.length + 1) none s hs

theorem patMatches_ws (re : List Re) (hre : nonWSFirst reFuel re = true) (s : Str)
    (hs : ∀ c ∈ s, isWS c = true) : patMatches re s = [] := by
  unfold patMatches
  rw [finditRe_ws re hre s hs]
  rfl

theorem allMatches_ws (log : Str) (hs : ∀ c ∈ log, isWS c = true) :
    allMatches log = [] := by
  unfold allMatches FILE_PATTERNS
  rw [List.map_cons, List.map_cons, List.map_cons, List.map_cons, List.map_cons,
      List.map_cons, List.map_cons, List.map_cons, List.map_cons, List.map_cons,
      List.map_nil]
  rw [patMatches_ws patPyTrace (by decide) log hs,
      patMatches_ws patPhp (by decide) log hs,
      patMatches_ws patCs (by decide) log hs,
      patMatches_ws patLinters (by decide) log hs,
      patMatches_ws patDocker (by decide) log hs,
      patMatches_ws patGeneric (by decide) log hs,
      patMatches_ws patNode (by decide) log hs,
      patMatches_ws patBuildFiles (by decide) log hs,
      patMatches_ws patWebpack (by decide) log hs,
      patMatches_ws patProse (by decide) log hs]
  rfl

def c6Log : Str := " \t\n  \r\n ".toList

/-- C6: `parse_affected_files` is a total function in this embedding (every
input returns a list); the empty log yields the empty sequence; every
whitespace-only log yields the empty sequence (no pattern of the battery can
match without consuming a non-whitespace character); and a rule without a
line-number group degrades to an absent line number rather than failing
(`parseLine none = none`). -/
theorem C6_total_empty :
    parse_affected_files [] = [] ∧
    (∀ log : Str, (∀ c ∈ log, isWS c = true) → parse_affected_files log = []) ∧
    parseLine none = none := by
  refine ⟨by decide, ?_, rfl⟩
  intro log hs
  unfold parse_affected_files
  rw [allMatches_ws log hs]
  rfl

theorem C6_witness : parse_affected_files c6Log = [] :=
  C6_total_empty.2.1 c6Log (by decide)
